import Mathlib

/-!
Verification of the schism crate (src/lib.rs): a `Split` iterator that chops a
byte source into fixed-size blocks, content-addresses each block by its hash and
encrypts it under a key derived from that hash, and a `Merge` reader that
decrypts an ordered sequence of (context, cachet) pairs back into a byte stream.

Bytes are modelled as `Nat` (no claim depends on the 0..255 bound), a 32-byte
digest and an opaque `Cachet` ciphertext both as `List Nat`.  The external
collaborators (sodiumoxide's sha256 and keytree's `KeyTree`) are modelled as a
record of functions; fallible external calls return `Option`.
-/

namespace Schism

/-- Model of the 32-byte sha256 digest `[u8;32]` used as the key-derivation
context. -/
abbrev Context := List Nat

/-- Model of the opaque authenticated-ciphertext type `cachet::v1::Cachet`. -/
abbrev Cachet := List Nat

/-- Model of the external key service `keytree::v1::KeyTree` together with the
content hash `sodiumoxide::crypto::hash::sha256::hash` (both are fixed for the
whole operation, so they are bundled).  `derive_and_encrypt` / `derive_and_decrypt`
return `none` on failure, modelling the `Result` of the external calls. -/
structure KeyTree where
  hash : List Nat → Context
  derive_and_encrypt : Context → List Nat → Option Cachet
  derive_and_decrypt : Context → Cachet → Option (List Nat)

/-- The error enum `LockBlockError` of src/lib.rs (the `io::Error` payload of
`IOError` is dropped: no claim inspects it). -/
inductive LockBlockError where
  | IOError
  | EncryptionSourceError
  | EncryptionError
  | DecryptionError
deriving DecidableEq

/-- Semantics of a value implementing `std::io::Read`: from a reader state and a
requested byte count, produce either an error or a chunk of at most that many
bytes (an empty chunk signals end-of-data), together with the successor state. -/
def Reader (σ : Type) : Type := σ → Nat → Except Unit (List Nat) × σ

/-- Model of `read.by_ref().take(limit).read_to_end(&mut buffer)`: repeatedly
read from the source, each time requesting at most the remaining limit, until
the limit is exhausted or the source reports end-of-data (a 0-byte read).  The
`fuel` argument makes the recursion structural; `readToEnd` passes `fuel = limit`,
which suffices because every nonempty chunk consumes at least one unit of limit,
so the fuel-exhausted branch is unreachable from `readToEnd`. -/
def readToEndAux (rd : Reader σ) : Nat → Nat → σ → Except Unit (List Nat) × σ
  | _, 0, s => (.ok [], s)
  | 0, _ + 1, s => (.ok [], s)
  | fuel + 1, limit + 1, s =>
    match rd s (limit + 1) with
    | (.error e, s') => (.error e, s')
    | (.ok [], s') => (.ok [], s')
    | (.ok (b :: bs), s') =>
      match readToEndAux rd fuel (limit + 1 - (b :: bs).length) s' with
      | (.error e, s'') => (.error e, s'')
      | (.ok rest, s'') => (.ok (b :: bs ++ rest), s'')

/-- The entry point used by `Split::next`: drain the source into a fresh buffer
of capacity `limit`. -/
def readToEnd (rd : Reader σ) (limit : Nat) (s : σ) : Except Unit (List Nat) × σ :=
  readToEndAux rd limit limit s

/-- The `Split` struct: a key-service reference, a byte source (its semantics
`read` plus its current state `src`), and the block size. -/
structure Split (σ : Type) where
  key : KeyTree
  read : Reader σ
  src : σ
  size : Nat

/-- `Split::new` of src/lib.rs: stores the fields, with no validation. -/
def Split.new (key : KeyTree) (read : Reader σ) (src : σ) (size : Nat) : Split σ :=
  { key := key, read := read, src := src, size := size }

/-- `Split::encrypt` of src/lib.rs: hash the data, encrypt under the key derived
from the hash, return the (hash, cachet) pair; a key-service failure becomes
`EncryptionError`. -/
def Split.encrypt (key : KeyTree) (data : List Nat) :
    Except LockBlockError (Context × Cachet) :=
  let hash := key.hash data
  match key.derive_and_encrypt hash data with
  | none => .error .EncryptionError
  | some cachet => .ok (hash, cachet)

/-- `Split::next` of src/lib.rs (the `Iterator` impl): read up to `size` bytes;
an I/O failure yields `some (error IOError)`, a 0-byte read ends the sequence
with `none`, otherwise the block is encrypted and the resulting pair (or
encryption error) is yielded.  The successor `Split` carries the advanced
source state. -/
def Split.next (sp : Split σ) :
    Option (Except LockBlockError (Context × Cachet)) × Split σ :=
  match readToEnd sp.read sp.size sp.src with
  | (.error _, s') => (some (.error .IOError), { sp with src := s' })
  | (.ok buffer, s') =>
    if buffer.length = 0 then (none, { sp with src := s' })
    else
      match Split.encrypt sp.key buffer with
      | .error e => (some (.error e), { sp with src := s' })
      | .ok pair => (some (.ok pair), { sp with src := s' })

/-- Drive the `Split` iterator for at most `fuel` steps, collecting the yielded
items in order (models a `for` loop over the iterator). -/
def runSplit : Nat → Split σ → List (Except LockBlockError (Context × Cachet)) × Split σ
  | 0, sp => ([], sp)
  | fuel + 1, sp =>
    match Split.next sp with
    | (none, sp') => ([], sp')
    | (some r, sp') =>
      let (rest, sp'') := runSplit fuel sp'
      (r :: rest, sp'')

/-- The `Read` impl for `&[u8]`: a read copies as many of the remaining bytes as
fit in the request and advances past them. -/
def listRead : Reader (List Nat) := fun s req => (.ok (s.take req), s.drop req)

/-- The whole output sequence of a `Split` over an in-memory byte slice `B`
with block size `S` (fuel `B.length + 1` covers every block plus the final
`none`, since each step with `1 ≤ S` consumes at least one byte). -/
def splitList (key : KeyTree) (B : List Nat) (S : Nat) :
    List (Except LockBlockError (Context × Cachet)) :=
  (runSplit (B.length + 1) (Split.new key listRead B S)).1

/-- The `Merge` struct of src/lib.rs: key-service reference, the pair iterator
(modelled by the list of pairs it has yet to yield, consumed front to back),
the current decrypted block `curr` and the read cursor `cidx` into it. -/
structure Merge where
  key : KeyTree
  src : List (Context × Cachet)
  curr : List Nat
  cidx : Nat

/-- `Merge::new` of src/lib.rs: empty current block, cursor 0. -/
def Merge.new (key : KeyTree) (src : List (Context × Cachet)) : Merge :=
  { key := key, src := src, curr := [], cidx := 0 }

/-- `Merge::decrypt` of src/lib.rs: a key-service failure becomes
`DecryptionError`. -/
def Merge.decrypt (key : KeyTree) (context : Context) (cachet : Cachet) :
    Except LockBlockError (List Nat) :=
  match key.derive_and_decrypt context cachet with
  | none => .error .DecryptionError
  | some d => .ok d

/-- Outcome of one `Merge::read` call: `ok written m` models `Ok(written.length)`
with `written` the bytes placed in the destination buffer, `err written m`
models the early `Err(io::Error::new(InvalidData, "Could Not Decrypt"))` return
(the only error path, raised from a `DecryptionError`); `written` records the
bytes the loop had already copied into the buffer before the error. -/
inductive MergeOut where
  | ok (written : List Nat) (m : Merge)
  | err (written : List Nat) (m : Merge)

/-- The loop body of `Merge::read` (src/lib.rs lines 26-50), with `remaining`
the free space left in the destination buffer (`buff.len() - bidx`) and
`written` the bytes copied so far.  Each iteration either returns, copies one
byte (shrinking `remaining`), or pulls and decrypts the next pair (shrinking
`src`), so `fuel = remaining + src.length + 1` (supplied by `Merge.read`) makes
the fuel-exhausted branch unreachable. -/
def Merge.readLoop : Nat → Merge → Nat → List Nat → MergeOut
  | 0, m, _, written => .ok written m
  | fuel + 1, m, remaining, written =>
    -- BASECASE: written max bytes buffer will hold
    if remaining = 0 then .ok written m
    -- BASECASE: emptied our current vec, grab the next one from src
    else if m.cidx = m.curr.length then
      match m.src with
      -- src has run out of items
      | [] => .ok written m
      | (context, cachet) :: rest =>
        match Merge.decrypt m.key context cachet with
        | .error _ => .err written { m with src := rest }
        | .ok d => Merge.readLoop fuel { m with src := rest, curr := d, cidx := 0 } remaining written
    -- LOOP: copy byte from self.curr into buffer
    else
      Merge.readLoop fuel { m with cidx := m.cidx + 1 } (remaining - 1)
        (written ++ [m.curr.getD m.cidx 0])

/-- `Merge::read` of src/lib.rs on a destination buffer of length `bufflen`. -/
def Merge.read (m : Merge) (bufflen : Nat) : MergeOut :=
  Merge.readLoop (bufflen + m.src.length + 1) m bufflen []

/-- The caller-side drain loop of the merge test in src/lib.rs: call `read` with
a `bufsize`-byte buffer until it returns 0 bytes, concatenating the results;
`none` on a read error or if `fuel` runs out. -/
def Merge.drain : Nat → Merge → Nat → Option (List Nat)
  | 0, _, _ => none
  | fuel + 1, m, bufsize =>
    match Merge.read m bufsize with
    | .err _ _ => none
    | .ok w m' =>
      if w.length = 0 then some []
      else (Merge.drain fuel m' bufsize).map (fun t => w ++ t)

/-- The caller-side collect loop of the tests (push every `Ok` pair, fail on the
first `Err`), i.e. `collect` into a `Result` of a pair vector. -/
def collectPairs : List (Except LockBlockError (Context × Cachet)) →
    Option (List (Context × Cachet))
  | [] => some []
  | .error _ :: _ => none
  | .ok p :: rest => (collectPairs rest).map (fun t => p :: t)

/-- Decrypt every pair of a sequence in order under `key`; `none` if any single
decryption fails. -/
def decStream (key : KeyTree) : List (Context × Cachet) → Option (List (List Nat))
  | [] => some []
  | (context, cachet) :: rest =>
    match key.derive_and_decrypt context cachet with
    | none => none
    | some d => (decStream key rest).map (fun t => d :: t)

/-- Mathematical chunking of a byte list into blocks of size `S` (the last block
may be shorter); used to state what the splitter produces.  For `1 ≤ S`,
`bs.drop (S - 1)` is `(b :: bs).drop S`. -/
def chunks (S : Nat) : List Nat → List (List Nat)
  | [] => []
  | b :: bs => (b :: bs).take S :: chunks S (bs.drop (S - 1))
termination_by l => l.length
decreasing_by simp; omega

/-- A scripted byte source: the state is the list of chunks the source will
serve; a read hands out at most `req` bytes of the front chunk, pushing any
leftover back.  With every chunk nonempty it yields fewer bytes than requested
whenever the front chunk is short, without being exhausted. -/
def scriptRead : Reader (List (List Nat)) := fun cs req =>
  match cs with
  | [] => (.ok [], [])
  | c :: rest =>
    (.ok (c.take req), if (c.drop req).isEmpty then rest else c.drop req :: rest)

/-- An inexhaustible byte source: every read returns exactly the requested
number of `7` bytes. -/
def constRead : Reader Unit := fun _ req => (.ok (List.replicate req 7), ())

/-- A concrete key service whose encryption is the identity on the plaintext:
total and round-tripping. -/
def idKS : KeyTree :=
  { hash := fun d => d
    derive_and_encrypt := fun _ d => some d
    derive_and_decrypt := fun _ c => some c }

/-- A concrete key service whose encryption and decryption always fail. -/
def failKS : KeyTree :=
  { hash := fun d => d
    derive_and_encrypt := fun _ _ => none
    derive_and_decrypt := fun _ _ => none }

/-- A concrete key service that decrypts every cachet except `[9]` (a model of
one tampered ciphertext in an otherwise healthy stream). -/
def mixKS : KeyTree :=
  { hash := fun d => d
    derive_and_encrypt := fun _ d => some d
    derive_and_decrypt := fun _ c => if c = [9] then none else some c }

/-- The key service's encryption never fails. -/
def KeyTree.EncTotal (k : KeyTree) : Prop :=
  ∀ context d, (k.derive_and_encrypt context d).isSome

/-- The external key-service contract: decryption under the same context
inverts encryption. -/
def KeyTree.RoundTrip (k : KeyTree) : Prop :=
  ∀ context d c, k.derive_and_encrypt context d = some c →
    k.derive_and_decrypt context c = some d

/-! Behaviour of the draining read on an in-memory byte slice. -/

theorem readToEndAux_listRead (fuel : Nat) : ∀ (limit : Nat) (B : List Nat), limit ≤ fuel →
    readToEndAux listRead fuel limit B = (.ok (B.take limit), B.drop limit) := by
  induction fuel with
  | zero =>
    intro limit B h
    have h0 : limit = 0 := by omega
    subst h0
    simp [readToEndAux]
  | succ f ih =>
    intro limit B h
    match limit with
    | 0 => simp [readToEndAux]
    | l + 1 =>
      match B with
      | [] => simp [readToEndAux, listRead]
      | b :: bs =>
        have hrec := ih (l - (bs.take l).length) (bs.drop l) (by
          have := List.length_take l bs
          omega)
        have hrest : (bs.drop l).take (l - (bs.take l).length) = [] := by
          rcases le_or_lt l bs.length with hl | hl
          · have h0 : l - (bs.take l).length = 0 := by
              rw [List.length_take]
              omega
            rw [h0, List.take_zero]
          · rw [List.drop_eq_nil_of_le (by omega), List.take_nil]
        have hdrop : (bs.drop l).drop (l - (bs.take l).length) = bs.drop l := by
          rcases le_or_lt l bs.length with hl | hl
          · have h0 : l - (bs.take l).length = 0 := by
              rw [List.length_take]
              omega
            rw [h0, List.drop_zero]
          · have h0 : bs.drop l = [] := List.drop_eq_nil_of_le (by omega)
            rw [h0, List.drop_nil]
        simp only [readToEndAux, listRead, List.take_succ_cons, List.drop_succ_cons,
          List.length_cons, Nat.succ_sub_succ]
        rw [hrec, hrest, hdrop]
        simp

theorem readToEnd_listRead (limit : Nat) (B : List Nat) :
    readToEnd listRead limit B = (.ok (B.take limit), B.drop limit) :=
  readToEndAux_listRead limit limit B le_rfl

theorem Split.next_listRead (k : KeyTree) (B : List Nat) (S : Nat)
    (hS : 1 ≤ S) (hB : B ≠ []) :
    Split.next (Split.new k listRead B S)
      = (some (Split.encrypt k (B.take S)), Split.new k listRead (B.drop S) S) := by
  have hlen : ¬ (B.take S).length = 0 := by
    have hpos : 0 < B.length := List.length_pos.mpr hB
    rw [List.length_take]
    omega
  simp only [Split.next, Split.new, readToEnd_listRead]
  rw [if_neg hlen]
  cases henc : Split.encrypt k (B.take S) <;> simp [henc]

theorem Split.next_listRead_nil (k : KeyTree) (S : Nat) :
    Split.next (Split.new k listRead [] S) = (none, Split.new k listRead [] S) := by
  simp [Split.next, Split.new, readToEnd_listRead]

theorem Split.next_size_zero (k : KeyTree) (rd : Reader σ) (s : σ) :
    Split.next (Split.new k rd s 0) = (none, Split.new k rd s 0) := rfl

/-! Basic facts about the mathematical chunking. -/

theorem chunks_nil (S : Nat) : chunks S [] = [] := by
  simp [chunks]

theorem chunks_cons (S : Nat) (hS : 1 ≤ S) (b : Nat) (bs : List Nat) :
    chunks S (b :: bs) = (b :: bs).take S :: chunks S ((b :: bs).drop S) := by
  obtain ⟨s, rfl⟩ : ∃ s, S = s + 1 := ⟨S - 1, by omega⟩
  rw [chunks]
  simp [List.drop_succ_cons]

theorem chunks_flatten (S : Nat) (hS : 1 ≤ S) : ∀ B : List Nat, (chunks S B).flatten = B := by
  intro B
  induction B using chunks.induct S with
  | case1 => simp [chunks]
  | case2 b bs ih =>
    rw [chunks]
    simp only [List.flatten_cons, ih]
    obtain ⟨s, rfl⟩ : ∃ s, S = s + 1 := ⟨S - 1, by omega⟩
    simp [List.take_cons]

theorem chunks_length (S : Nat) (hS : 1 ≤ S) : ∀ B : List Nat,
    (chunks S B).length = (B.length + S - 1) / S := by
  have hS0 : 0 < S := hS
  intro B
  induction B using chunks.induct S with
  | case1 =>
    rw [chunks_nil]
    simp only [List.length_nil, Nat.zero_add]
    rw [Nat.div_eq_of_lt (by omega)]
  | case2 b bs ih =>
    rw [chunks, List.length_cons, ih, List.length_drop, List.length_cons]
    rcases Nat.lt_or_ge bs.length S with hc | hc
    · have h1 : bs.length - (S - 1) + S - 1 = S - 1 := by omega
      have h2 : bs.length + 1 + S - 1 = bs.length + S := by omega
      rw [h1, h2, Nat.div_eq_of_lt (by omega), Nat.add_div_right bs.length hS0,
        Nat.div_eq_of_lt hc]
    · have h1 : bs.length - (S - 1) + S - 1 = bs.length := by omega
      have h2 : bs.length + 1 + S - 1 = bs.length + S := by omega
      rw [h1, h2, Nat.add_div_right bs.length hS0]

theorem chunks_eq_nil_iff (S : Nat) (B : List Nat) : chunks S B = [] ↔ B = [] := by
  cases B with
  | nil => simp [chunks_nil]
  | cons b bs => rw [chunks]; simp

theorem chunks_getD_length (S : Nat) (hS : 1 ≤ S) : ∀ (B : List Nat) (i : Nat),
    i < (chunks S B).length →
    ((chunks S B).getD i []).length =
      if i + 1 < (chunks S B).length then S
      else if B.length % S = 0 then S else B.length % S := by
  intro B
  induction B using chunks.induct S with
  | case1 =>
    intro i h
    rw [chunks_nil] at h
    simp at h
  | case2 b bs ih =>
    intro i h
    have heq : chunks S (b :: bs) = (b :: bs).take S :: chunks S (bs.drop (S - 1)) := by
      rw [chunks]
    rw [heq] at h ⊢
    match i with
    | 0 =>
      rw [List.getD_cons_zero]
      rcases eq_or_ne (bs.drop (S - 1)) [] with hnil | hnil
      · have hlen : bs.length ≤ S - 1 := by
          rw [List.drop_eq_nil_iff] at hnil
          omega
        rw [hnil, chunks_nil]
        simp only [List.length_cons, List.length_nil]
        rw [if_neg (by omega), List.length_take, List.length_cons]
        rcases eq_or_lt_of_le (show bs.length + 1 ≤ S by omega) with hBS | hBS
        · rw [← hBS]
          simp
        · rw [Nat.mod_eq_of_lt hBS, if_neg (by omega)]
          omega
      · have hlen : S - 1 < bs.length := by
          by_contra hcon
          exact hnil (List.drop_eq_nil_of_le (by omega))
        have hcount : 0 < (chunks S (bs.drop (S - 1))).length :=
          List.length_pos.mpr (fun hcon => hnil ((chunks_eq_nil_iff S _).mp hcon))
        rw [List.length_cons, if_pos (by omega), List.length_take, List.length_cons]
        omega
    | j + 1 =>
      rw [List.getD_cons_succ]
      rw [List.length_cons] at h
      have hj : j < (chunks S (bs.drop (S - 1))).length := by omega
      rw [ih j hj]
      have hcnt : 0 < (chunks S (bs.drop (S - 1))).length := by omega
      have hlen : S - 1 < bs.length := by
        by_contra hcon
        have hdnil : bs.drop (S - 1) = [] := List.drop_eq_nil_of_le (by omega)
        rw [hdnil, chunks_nil] at hcnt
        simp at hcnt
      have hmod : (b :: bs).length % S = (bs.drop (S - 1)).length % S := by
        rw [List.length_cons, List.length_drop]
        rw [Nat.mod_eq_sub_mod (by omega : bs.length + 1 ≥ S)]
        congr 1
        omega
      rw [hmod, List.length_cons]
      rcases Nat.lt_or_ge (j + 1) (chunks S (bs.drop (S - 1))).length with hcase | hcase
      · rw [if_pos hcase,
          if_pos (show j + 1 + 1 < (chunks S (bs.drop (S - 1))).length + 1 by omega)]
      · rw [if_neg (show ¬ j + 1 < (chunks S (bs.drop (S - 1))).length by omega),
          if_neg (show ¬ j + 1 + 1 < (chunks S (bs.drop (S - 1))).length + 1 by omega)]

/-! The whole split of an in-memory byte slice is the chunking, encrypted. -/

theorem runSplit_listRead (k : KeyTree) (S : Nat) (hS : 1 ≤ S) :
    ∀ (fuel : Nat) (B : List Nat), B.length < fuel →
    (runSplit fuel (Split.new k listRead B S)).1 = (chunks S B).map (Split.encrypt k) := by
  intro fuel
  induction fuel with
  | zero =>
    intro B h
    omega
  | succ f ih =>
    intro B h
    match B with
    | [] =>
      rw [runSplit, Split.next_listRead_nil, chunks_nil]
      rfl
    | b :: bs =>
      rw [runSplit, Split.next_listRead k (b :: bs) S hS (by simp)]
      have ih' := ih ((b :: bs).drop S) (by
        rw [List.length_drop, List.length_cons] at *
        omega)
      simp only []
      rw [chunks_cons S hS, List.map_cons]
      simp [ih']

theorem splitList_eq (k : KeyTree) (B : List Nat) (S : Nat) (hS : 1 ≤ S) :
    splitList k B S = (chunks S B).map (Split.encrypt k) :=
  runSplit_listRead k S hS (B.length + 1) B (by omega)

/-! The Merge read loop, on a pair stream that decrypts throughout.  The
remaining decrypted stream of a merger state is the unread tail of its current
block followed by the decryptions of the pairs still in the iterator. -/

theorem Merge.readLoop_rem_zero (f : Nat) (m : Merge) (w : List Nat) :
    Merge.readLoop (f + 1) m 0 w = .ok w m := by
  rw [Merge.readLoop]
  simp

theorem Merge.readLoop_src_nil (f : Nat) (key : KeyTree) (curr : List Nat) (cidx r : Nat)
    (w : List Nat) (hr : r ≠ 0) (hc : cidx = curr.length) :
    Merge.readLoop (f + 1) ⟨key, [], curr, cidx⟩ r w = .ok w ⟨key, [], curr, cidx⟩ := by
  rw [Merge.readLoop]
  dsimp only
  rw [if_neg hr, if_pos hc]

theorem Merge.readLoop_pull (f : Nat) (key : KeyTree) (context : Context) (cachet : Cachet)
    (rest : List (Context × Cachet)) (curr : List Nat) (cidx r : Nat) (w : List Nat)
    (hr : r ≠ 0) (hc : cidx = curr.length) :
    Merge.readLoop (f + 1) ⟨key, (context, cachet) :: rest, curr, cidx⟩ r w
      = match Merge.decrypt key context cachet with
        | .error _ => .err w ⟨key, rest, curr, cidx⟩
        | .ok d => Merge.readLoop f ⟨key, rest, d, 0⟩ r w := by
  rw [Merge.readLoop]
  dsimp only
  rw [if_neg hr, if_pos hc]

theorem Merge.readLoop_copy (f : Nat) (key : KeyTree) (src : List (Context × Cachet))
    (curr : List Nat) (cidx r : Nat) (w : List Nat)
    (hr : r ≠ 0) (hc : ¬ cidx = curr.length) :
    Merge.readLoop (f + 1) ⟨key, src, curr, cidx⟩ r w
      = Merge.readLoop f ⟨key, src, curr, cidx + 1⟩ (r - 1) (w ++ [curr.getD cidx 0]) := by
  rw [Merge.readLoop]
  dsimp only
  rw [if_neg hr, if_neg hc]

theorem Merge.readLoop_ok :
    ∀ (fuel : Nat) (key : KeyTree) (src : List (Context × Cachet)) (curr : List Nat)
      (cidx remaining : Nat) (written : List Nat) (bs : List (List Nat)),
    cidx ≤ curr.length →
    decStream key src = some bs →
    remaining + src.length < fuel →
    ∃ (m' : Merge) (bs' : List (List Nat)),
      Merge.readLoop fuel ⟨key, src, curr, cidx⟩ remaining written
        = .ok (written ++ (curr.drop cidx ++ bs.flatten).take remaining) m'
      ∧ m'.key = key
      ∧ m'.cidx ≤ m'.curr.length
      ∧ decStream m'.key m'.src = some bs'
      ∧ m'.curr.drop m'.cidx ++ bs'.flatten
          = (curr.drop cidx ++ bs.flatten).drop remaining := by
  intro fuel
  induction fuel with
  | zero =>
    intro key src curr cidx remaining written bs h1 h2 h3
    omega
  | succ f ih =>
    intro key src curr cidx remaining written bs h1 h2 h3
    by_cases hr : remaining = 0
    · subst hr
      rw [Merge.readLoop_rem_zero]
      exact ⟨⟨key, src, curr, cidx⟩, bs, by simp, rfl, h1, h2, by simp⟩
    · by_cases hc : cidx = curr.length
      · cases src with
        | nil =>
          have hbs : bs = [] := by
            rw [decStream] at h2
            exact (Option.some.inj h2).symm
          subst hbs
          rw [Merge.readLoop_src_nil f key curr cidx remaining written hr hc]
          refine ⟨⟨key, [], curr, cidx⟩, [], ?_, rfl, h1, rfl, ?_⟩
          · rw [hc, List.drop_length]
            simp
          · rw [hc, List.drop_length]
            simp
        | cons p rest =>
          obtain ⟨context, cachet⟩ := p
          rw [decStream] at h2
          match hdec : key.derive_and_decrypt context cachet with
          | none =>
            rw [hdec] at h2
            exact absurd h2 (by simp)
          | some d =>
            rw [hdec] at h2
            obtain ⟨ds, hds, hbs⟩ := Option.map_eq_some'.mp h2
            subst hbs
            have hMd : Merge.decrypt key context cachet = .ok d := by
              rw [Merge.decrypt, hdec]
            rw [Merge.readLoop_pull f key context cachet rest curr cidx remaining written hr hc,
              hMd]
            dsimp only
            have hrec := ih key rest d 0 remaining written ds (by simp) hds
              (by
                rw [List.length_cons] at h3
                omega)
            obtain ⟨m', bs', heq, hk, hc', hd', hrem⟩ := hrec
            refine ⟨m', bs', ?_, hk, hc', hd', ?_⟩
            · rw [heq, hc, List.drop_length]
              simp
            · rw [hrem, hc, List.drop_length]
              simp
      · have hlt : cidx < curr.length := by omega
        obtain ⟨r, hr'⟩ : ∃ r, remaining = r + 1 := ⟨remaining - 1, by omega⟩
        subst hr'
        rw [Merge.readLoop_copy f key src curr cidx (r + 1) written hr hc,
          Nat.add_sub_cancel]
        have hrec := ih key src curr (cidx + 1) r (written ++ [curr.getD cidx 0]) bs
          (by omega) h2 (by omega)
        obtain ⟨m', bs', heq, hk, hc', hd', hrem⟩ := hrec
        have hsplit : curr.drop cidx = curr[cidx] :: curr.drop (cidx + 1) :=
          List.drop_eq_getElem_cons hlt
        have hgetD : curr.getD cidx 0 = curr[cidx] :=
          List.getD_eq_getElem curr 0 hlt
        refine ⟨m', bs', ?_, hk, hc', hd', ?_⟩
        · rw [heq, hgetD, hsplit, List.cons_append, List.take_succ_cons, List.append_assoc,
            List.singleton_append]
        · rw [hrem, hsplit, List.cons_append, List.drop_succ_cons]

theorem Merge.read_ok (key : KeyTree) (src : List (Context × Cachet)) (curr : List Nat)
    (cidx bufflen : Nat) (bs : List (List Nat))
    (h1 : cidx ≤ curr.length) (h2 : decStream key src = some bs) :
    ∃ (m' : Merge) (bs' : List (List Nat)),
      Merge.read ⟨key, src, curr, cidx⟩ bufflen
        = .ok ((curr.drop cidx ++ bs.flatten).take bufflen) m'
      ∧ m'.key = key
      ∧ m'.cidx ≤ m'.curr.length
      ∧ decStream m'.key m'.src = some bs'
      ∧ m'.curr.drop m'.cidx ++ bs'.flatten
          = (curr.drop cidx ++ bs.flatten).drop bufflen := by
  obtain ⟨m', bs', heq, h⟩ :=
    Merge.readLoop_ok (bufflen + src.length + 1) key src curr cidx bufflen [] bs h1 h2
      (by omega)
  exact ⟨m', bs', by simpa [Merge.read] using heq, h⟩

theorem Merge.drain_ok :
    ∀ (fuel : Nat) (key : KeyTree) (src : List (Context × Cachet)) (curr : List Nat)
      (cidx n : Nat) (bs : List (List Nat)),
    1 ≤ n →
    cidx ≤ curr.length →
    decStream key src = some bs →
    (curr.drop cidx ++ bs.flatten).length < fuel →
    Merge.drain fuel ⟨key, src, curr, cidx⟩ n = some (curr.drop cidx ++ bs.flatten) := by
  intro fuel
  induction fuel with
  | zero =>
    intro key src curr cidx n bs hn h1 h2 h3
    omega
  | succ f ih =>
    intro key src curr cidx n bs hn h1 h2 h3
    obtain ⟨m', bs', heq, hk, hc', hd', hrem⟩ := Merge.read_ok key src curr cidx n bs h1 h2
    rw [Merge.drain, heq]
    dsimp only
    rcases eq_or_ne (curr.drop cidx ++ bs.flatten) [] with hR0 | hR0
    · rw [hR0]
      simp
    · have hRpos : 0 < (curr.drop cidx ++ bs.flatten).length := List.length_pos.mpr hR0
      have hw : ¬ ((curr.drop cidx ++ bs.flatten).take n).length = 0 := by
        rw [List.length_take]
        omega
      rw [if_neg hw]
      obtain ⟨key', src', curr', cidx'⟩ := m'
      dsimp only at hk hc' hd' hrem
      have hlen' : (curr'.drop cidx' ++ bs'.flatten).length < f := by
        have := congrArg List.length hrem
        rw [List.length_drop] at this
        omega
      rw [ih key' src' curr' cidx' n bs' hn hc' hd' hlen', hrem]
      rw [Option.map_some']
      rw [List.take_append_drop]

/-- Encrypt-then-collect-then-decrypt inverts on every block list, for a key
service that is total on encryption and round-tripping. -/
theorem collect_dec (k : KeyTree) (henc : k.EncTotal) (hrt : k.RoundTrip) :
    ∀ ds : List (List Nat), ∃ pairs,
      collectPairs (ds.map (Split.encrypt k)) = some pairs
      ∧ decStream k pairs = some ds := by
  intro ds
  induction ds with
  | nil => exact ⟨[], rfl, rfl⟩
  | cons d ds ih =>
    obtain ⟨pairs, hcol, hdec⟩ := ih
    obtain ⟨c, hc⟩ := Option.isSome_iff_exists.mp (henc (k.hash d) d)
    refine ⟨(k.hash d, c) :: pairs, ?_, ?_⟩
    · rw [List.map_cons]
      have henc' : Split.encrypt k d = .ok (k.hash d, c) := by
        rw [Split.encrypt, hc]
      rw [henc']
      simp [collectPairs, hcol]
    · simp [decStream, hrt (k.hash d) d c hc, hdec]

/-! The Merge read loop aborts with the accumulated prefix when it pulls a pair
that fails to decrypt. -/

theorem Merge.readLoop_err :
    ∀ (fuel : Nat) (key : KeyTree) (good : List (Context × Cachet)) (context : Context)
      (cachet : Cachet) (rest : List (Context × Cachet)) (curr : List Nat)
      (cidx remaining : Nat) (written : List Nat) (bs : List (List Nat)),
    cidx ≤ curr.length →
    decStream key good = some bs →
    key.derive_and_decrypt context cachet = none →
    (curr.drop cidx ++ bs.flatten).length < remaining →
    remaining + (good ++ (context, cachet) :: rest).length < fuel →
    ∃ m', Merge.readLoop fuel ⟨key, good ++ (context, cachet) :: rest, curr, cidx⟩
        remaining written
      = .err (written ++ (curr.drop cidx ++ bs.flatten)) m' := by
  intro fuel
  induction fuel with
  | zero =>
    intro key good context cachet rest curr cidx remaining written bs h1 h2 hbad hlen h3
    omega
  | succ f ih =>
    intro key good context cachet rest curr cidx remaining written bs h1 h2 hbad hlen h3
    have hr : remaining ≠ 0 := by omega
    by_cases hc : cidx = curr.length
    · cases good with
      | nil =>
        have hbs : bs = [] := by
          rw [decStream] at h2
          exact (Option.some.inj h2).symm
        subst hbs
        have hMd : Merge.decrypt key context cachet = .error .DecryptionError := by
          rw [Merge.decrypt, hbad]
        rw [List.nil_append,
          Merge.readLoop_pull f key context cachet rest curr cidx remaining written hr hc, hMd]
        dsimp only
        refine ⟨⟨key, rest, curr, cidx⟩, ?_⟩
        rw [hc, List.drop_length]
        simp
      | cons p good' =>
        obtain ⟨c0, x0⟩ := p
        rw [decStream] at h2
        match hdec : key.derive_and_decrypt c0 x0 with
        | none =>
          rw [hdec] at h2
          exact absurd h2 (by simp)
        | some d =>
          rw [hdec] at h2
          obtain ⟨ds, hds, hbs⟩ := Option.map_eq_some'.mp h2
          subst hbs
          have hMd : Merge.decrypt key c0 x0 = .ok d := by
            rw [Merge.decrypt, hdec]
          rw [List.cons_append,
            Merge.readLoop_pull f key c0 x0 (good' ++ (context, cachet) :: rest) curr cidx
              remaining written hr hc, hMd]
          dsimp only
          have hrec := ih key good' context cachet rest d 0 remaining written ds (by simp) hds
            hbad
            (by
              rw [hc, List.drop_length] at hlen
              simp only [List.nil_append, List.flatten_cons, List.length_append] at hlen
              simp only [List.drop_zero, List.length_append]
              omega)
            (by
              simp only [List.length_append, List.length_cons] at h3 ⊢
              omega)
          obtain ⟨m', heq⟩ := hrec
          refine ⟨m', ?_⟩
          rw [heq, hc, List.drop_length]
          simp
    · have hlt : cidx < curr.length := by omega
      obtain ⟨r, hr'⟩ : ∃ r, remaining = r + 1 := ⟨remaining - 1, by omega⟩
      subst hr'
      rw [Merge.readLoop_copy f key (good ++ (context, cachet) :: rest) curr cidx (r + 1)
        written hr hc, Nat.add_sub_cancel]
      have hsplit : curr.drop cidx = curr[cidx] :: curr.drop (cidx + 1) :=
        List.drop_eq_getElem_cons hlt
      have hgetD : curr.getD cidx 0 = curr[cidx] :=
        List.getD_eq_getElem curr 0 hlt
      have hrec := ih key good context cachet rest curr (cidx + 1) r
        (written ++ [curr.getD cidx 0]) bs (by omega) h2 hbad
        (by
          rw [hsplit, List.cons_append, List.length_cons] at hlen
          omega)
        (by omega)
      obtain ⟨m', heq⟩ := hrec
      refine ⟨m', ?_⟩
      rw [heq, hgetD, hsplit, List.cons_append, List.append_assoc, List.singleton_append]

theorem Merge.read_err (key : KeyTree) (good : List (Context × Cachet)) (context : Context)
    (cachet : Cachet) (rest : List (Context × Cachet)) (bs : List (List Nat)) (n : Nat)
    (hgood : decStream key good = some bs)
    (hbad : key.derive_and_decrypt context cachet = none)
    (hn : bs.flatten.length < n) :
    ∃ m', Merge.read (Merge.new key (good ++ (context, cachet) :: rest)) n
      = .err bs.flatten m' := by
  obtain ⟨m', heq⟩ :=
    Merge.readLoop_err (n + (good ++ (context, cachet) :: rest).length + 1) key good context
      cachet rest [] 0 n [] bs (by simp) hgood hbad (by simpa using hn) (by omega)
  exact ⟨m', by simpa [Merge.read, Merge.new] using heq⟩

/-! The draining read gathers a full block out of a scripted source even when
every single read call hands back fewer bytes than requested. -/

theorem readToEndAux_scriptRead :
    ∀ (fuel limit : Nat) (cs : List (List Nat)),
    limit ≤ fuel →
    (∀ c ∈ cs, c ≠ []) →
    ∃ cs', readToEndAux scriptRead fuel limit cs = (.ok (cs.flatten.take limit), cs')
      ∧ cs'.flatten = cs.flatten.drop limit
      ∧ (∀ c ∈ cs', c ≠ []) := by
  intro fuel
  induction fuel with
  | zero =>
    intro limit cs h hne
    have h0 : limit = 0 := by omega
    subst h0
    exact ⟨cs, by simp [readToEndAux], by simp, hne⟩
  | succ f ih =>
    intro limit cs h hne
    match limit with
    | 0 => exact ⟨cs, by simp [readToEndAux], by simp, hne⟩
    | l + 1 =>
      match cs with
      | [] =>
        refine ⟨[], ?_, by simp, by simp⟩
        simp [readToEndAux, scriptRead]
      | c :: rest =>
        have hcne : c ≠ [] := hne c (by simp)
        match c with
        | [] => exact absurd rfl hcne
        | a :: as =>
          have hrne : ∀ x ∈ rest, x ≠ [] := fun x hx => hne x (by simp [hx])
          rcases le_or_lt (a :: as).length (l + 1) with hcl | hcl
          · -- the whole front chunk fits: it is handed out and the leftover is empty
            have htake : (a :: as).take (l + 1) = a :: as := List.take_of_length_le hcl
            have hdropc : (a :: as).drop (l + 1) = [] := List.drop_eq_nil_of_le hcl
            have ihr := ih (l + 1 - (a :: as).length) rest (by
              rw [List.length_cons]
              omega) hrne
            obtain ⟨cs', heq, hflat, hne'⟩ := ihr
            refine ⟨cs', ?_, ?_, hne'⟩
            · simp only [readToEndAux, scriptRead, htake, hdropc, List.isEmpty_nil, if_pos]
              rw [heq]
              dsimp only
              rw [List.flatten_cons, List.take_append_eq_append_take,
                List.take_of_length_le hcl]
            · rw [hflat, List.flatten_cons, List.drop_append_eq_append_drop, hdropc,
                List.nil_append]
          · -- the front chunk does not fit: hand out a limit-full and push back the rest
            have hleft : (a :: as).drop (l + 1) ≠ [] := by
              intro hcon
              rw [List.drop_eq_nil_iff] at hcon
              omega
            have hlen : ((a :: as).take (l + 1)).length = l + 1 := by
              rw [List.length_take]
              omega
            refine ⟨(a :: as).drop (l + 1) :: rest, ?_, ?_, ?_⟩
            · simp only [readToEndAux, scriptRead, List.take_succ_cons, List.drop_succ_cons]
              rw [if_neg (by
                intro hcon
                rw [List.isEmpty_iff] at hcon
                exact hleft (by simpa using hcon))]
              have hstop : l + 1 - (a :: (as.take l)).length = 0 := by
                rw [List.length_cons, List.length_take]
                rw [List.length_cons] at hcl
                omega
              rw [hstop]
              simp only [readToEndAux]
              rw [List.flatten_cons, List.take_append_of_le_length (by omega),
                List.take_succ_cons, List.append_nil]
            · rw [List.flatten_cons, List.flatten_cons,
                List.drop_append_of_le_length (by omega), List.drop_succ_cons]
            · intro x hx
              rcases List.mem_cons.mp hx with hx0 | hx1
              · rw [hx0]
                exact hleft
              · exact hrne x hx1

theorem readToEnd_scriptRead (limit : Nat) (cs : List (List Nat))
    (hne : ∀ c ∈ cs, c ≠ []) :
    ∃ cs', readToEnd scriptRead limit cs = (.ok (cs.flatten.take limit), cs')
      ∧ cs'.flatten = cs.flatten.drop limit
      ∧ (∀ c ∈ cs', c ≠ []) :=
  readToEndAux_scriptRead limit limit cs le_rfl hne

/-- C1: for every byte sequence `B` and positive block size `S`, splitting `B`
with block size `S` under a key service (total on encryption and satisfying the
decrypt-inverts-encrypt contract) and merging the resulting (context, cachet)
pair sequence in order under the same key service reconstructs exactly `B`,
byte for byte, for any positive destination buffer size `n`. -/
theorem roundtrip_split_merge (k : KeyTree) (B : List Nat) (S n : Nat)
    (hS : 1 ≤ S) (hn : 1 ≤ n) (henc : k.EncTotal) (hrt : k.RoundTrip) :
    ∃ pairs, collectPairs (splitList k B S) = some pairs
      ∧ Merge.drain (B.length + 1) (Merge.new k pairs) n = some B := by
  obtain ⟨pairs, hcol, hdec⟩ := collect_dec k henc hrt (chunks S B)
  refine ⟨pairs, ?_, ?_⟩
  · rw [splitList_eq k B S hS]
    exact hcol
  · have hfl : (chunks S B).flatten = B := chunks_flatten S hS B
    have hd := Merge.drain_ok (B.length + 1) k pairs [] 0 n (chunks S B) hn (by simp) hdec
      (by simp only [List.drop_zero, List.nil_append, hfl]; omega)
    simpa [Merge.new, hfl] using hd

/-- Witness for C1: the identity key service is total and round-tripping, and
the 3-byte input `[10, 20, 30]` split at block size 2 merges back to itself
through a 1-byte destination buffer. -/
theorem roundtrip_split_merge_witness :
    idKS.EncTotal ∧ idKS.RoundTrip ∧
    ∃ pairs, collectPairs (splitList idKS [10, 20, 30] 2) = some pairs
      ∧ Merge.drain ([10, 20, 30].length + 1) (Merge.new idKS pairs) 1
          = some [10, 20, 30] := by
  have henc : idKS.EncTotal := fun _ _ => rfl
  have hrt : idKS.RoundTrip := fun _ _ _ h => h.symm
  exact ⟨henc, hrt,
    roundtrip_split_merge idKS [10, 20, 30] 2 1 (by omega) (by omega) henc hrt⟩

/-- C2: for every byte sequence `B` and positive block size `S`, the splitter
yields exactly ceil(len(B)/S) = (len(B) + S - 1) / S pairs (0 of them when `B`
is empty), and on an empty source its first `next` already returns `none` —
never a single empty block. -/
theorem split_chunk_count (k : KeyTree) (B : List Nat) (S : Nat) (hS : 1 ≤ S) :
    (splitList k B S).length = (B.length + S - 1) / S
    ∧ splitList k [] S = []
    ∧ Split.next (Split.new k listRead [] S) = (none, Split.new k listRead [] S) := by
  refine ⟨?_, ?_, Split.next_listRead_nil k S⟩
  · rw [splitList_eq k B S hS, List.length_map, chunks_length S hS]
  · rw [splitList_eq k [] S hS, chunks_nil]
    rfl

/-- Witness for C2: 5 bytes at block size 2 give (5 + 2 - 1) / 2 = 3 pairs, and
an empty source gives zero pairs. -/
theorem split_chunk_count_witness :
    (splitList idKS [1, 2, 3, 4, 5] 2).length = ([1, 2, 3, 4, 5].length + 2 - 1) / 2
    ∧ splitList idKS [] 2 = []
    ∧ Split.next (Split.new idKS listRead [] 2) = (none, Split.new idKS listRead [] 2) :=
  split_chunk_count idKS [1, 2, 3, 4, 5] 2 (by omega)

/-- C3: for every byte sequence `B` and positive block size `S`, the splitter
encrypts exactly the blocks `chunks S B`, and every one of those plaintext
blocks has length `S` except possibly the final one, whose length is
`len(B) mod S`, or `S` when that mod is 0. -/
theorem split_block_sizes (k : KeyTree) (B : List Nat) (S : Nat) (hS : 1 ≤ S) :
    splitList k B S = (chunks S B).map (Split.encrypt k)
    ∧ ∀ i : Nat, i < (chunks S B).length →
        ((chunks S B).getD i []).length =
          if i + 1 < (chunks S B).length then S
          else if B.length % S = 0 then S else B.length % S :=
  ⟨splitList_eq k B S hS, chunks_getD_length S hS B⟩

/-- Witness for C3 at the 5-byte input and block size 2 (blocks of length
2, 2, 1). -/
theorem split_block_sizes_witness :
    splitList idKS [1, 2, 3, 4, 5] 2 = (chunks 2 [1, 2, 3, 4, 5]).map (Split.encrypt idKS)
    ∧ ∀ i : Nat, i < (chunks 2 [1, 2, 3, 4, 5]).length →
        ((chunks 2 [1, 2, 3, 4, 5]).getD i []).length =
          if i + 1 < (chunks 2 [1, 2, 3, 4, 5]).length then 2
          else if [1, 2, 3, 4, 5].length % 2 = 0 then 2 else [1, 2, 3, 4, 5].length % 2 :=
  split_block_sizes idKS [1, 2, 3, 4, 5] 2 (by omega)

/-- C4 counterexample: constructing a splitter with block size 0 is not
rejected — `Split::new` stores the fields unvalidated and returns a `Split`,
and that instance is usable: its first `next` is a normal `none`, not an
error of any kind. -/
theorem split_new_zero_block_size_counterexample :
    Split.new idKS listRead [1, 2, 3] 0
        = { key := idKS, read := listRead, src := [1, 2, 3], size := 0 }
    ∧ Split.next (Split.new idKS listRead [1, 2, 3] 0)
        = (none, Split.new idKS listRead [1, 2, 3] 0) :=
  ⟨rfl, rfl⟩

/-- C4 (amended): `Split::new` performs no validation at all: with
`block_size == 0` it succeeds and returns a `Split` whose sequence is simply
empty (a zero-byte read gathers nothing, so the first `next` is `none` and the
source state is untouched); moreover the error type `LockBlockError` has no
`ConfigurationError` variant to fail with. -/
theorem split_new_zero_block_size (σ : Type) (k : KeyTree) (rd : Reader σ) (s : σ) :
    Split.new k rd s 0 = { key := k, read := rd, src := s, size := 0 }
    ∧ Split.next (Split.new k rd s 0) = (none, Split.new k rd s 0)
    ∧ ∀ e : LockBlockError,
        e = .IOError ∨ e = .EncryptionSourceError ∨ e = .EncryptionError
          ∨ e = .DecryptionError := by
  refine ⟨rfl, rfl, ?_⟩
  intro e
  cases e
  exacts [Or.inl rfl, Or.inr (Or.inl rfl), Or.inr (Or.inr (Or.inl rfl)),
    Or.inr (Or.inr (Or.inr rfl))]

/-- C5: when the merger pulls a pair whose decryption fails, `Merge::decrypt`
produces exactly `DecryptionError`, the read call returns the error outcome,
and the destination buffer holds only the bytes of the blocks decrypted before
it — not a single byte derived from the failing block. -/
theorem merge_decryption_failure_all_or_nothing (k : KeyTree)
    (good : List (Context × Cachet)) (context : Context) (cachet : Cachet)
    (rest : List (Context × Cachet)) (bs : List (List Nat)) (n : Nat)
    (hgood : decStream k good = some bs)
    (hbad : k.derive_and_decrypt context cachet = none)
    (hn : bs.flatten.length < n) :
    Merge.decrypt k context cachet = .error .DecryptionError
    ∧ ∃ m', Merge.read (Merge.new k (good ++ (context, cachet) :: rest)) n
        = .err bs.flatten m' := by
  constructor
  · rw [Merge.decrypt, hbad]
  · exact Merge.read_err k good context cachet rest bs n hgood hbad hn

/-- Witness for C5: one healthy pair followed by an undecryptable one; a 5-byte
read surfaces the error and has written exactly the first block's two bytes. -/
theorem merge_decryption_failure_all_or_nothing_witness :
    Merge.decrypt mixKS [0] [9] = .error .DecryptionError
    ∧ ∃ m', Merge.read (Merge.new mixKS [([0], [1, 2]), ([0], [9])]) 5 = .err [1, 2] m' :=
  merge_decryption_failure_all_or_nothing mixKS [([0], [1, 2])] [0] [9] [] [[1, 2]] 5
    (by decide) (by decide) (by decide)

/-- C6: for every pair sequence that decrypts throughout and every two positive
destination buffer sizes, draining the merger (reading until a 0-byte result)
produces the same concatenated byte output for both buffer sizes. -/
theorem merge_dest_buffer_size_invariance (k : KeyTree) (pairs : List (Context × Cachet))
    (bs : List (List Nat)) (n1 n2 : Nat) (h1 : 1 ≤ n1) (h2 : 1 ≤ n2)
    (hdec : decStream k pairs = some bs) :
    Merge.drain (bs.flatten.length + 1) (Merge.new k pairs) n1
      = Merge.drain (bs.flatten.length + 1) (Merge.new k pairs) n2 := by
  have e1 := Merge.drain_ok (bs.flatten.length + 1) k pairs [] 0 n1 bs h1 (by simp) hdec
    (by simp only [List.drop_zero, List.nil_append]; omega)
  have e2 := Merge.drain_ok (bs.flatten.length + 1) k pairs [] 0 n2 bs h2 (by simp) hdec
    (by simp only [List.drop_zero, List.nil_append]; omega)
  rw [show Merge.new k pairs = ⟨k, pairs, [], 0⟩ from rfl, e1, e2]

/-- Witness for C6: two pairs decrypting to blocks of lengths 3 and 1, drained
with 1-byte and with 4-byte destination buffers. -/
theorem merge_dest_buffer_size_invariance_witness :
    Merge.drain 5 (Merge.new idKS [([1], [1, 2, 3]), ([2], [4])]) 1
      = Merge.drain 5 (Merge.new idKS [([1], [1, 2, 3]), ([2], [4])]) 4 :=
  merge_dest_buffer_size_invariance idKS [([1], [1, 2, 3]), ([2], [4])] [[1, 2, 3], [4]] 1 4
    (by decide) (by decide) (by decide)

/-- C7: over a scripted source whose every read yields a nonempty chunk that
may be shorter than requested, the splitter's block is still the first `S`
bytes of the whole byte stream: the read is repeated until `block_size` bytes
are gathered or true end-of-data, so one short read never ends a block early. -/
theorem split_drains_short_reads (k : KeyTree) (cs : List (List Nat)) (S : Nat)
    (hS : 1 ≤ S) (hcs : cs ≠ []) (hne : ∀ c ∈ cs, c ≠ []) :
    ∃ cs', Split.next (Split.new k scriptRead cs S)
        = (some (Split.encrypt k (cs.flatten.take S)), Split.new k scriptRead cs' S)
      ∧ cs'.flatten = cs.flatten.drop S := by
  obtain ⟨cs', h1, h2, h3⟩ := readToEnd_scriptRead S cs hne
  refine ⟨cs', ?_, h2⟩
  have hflatpos : 0 < cs.flatten.length := by
    match cs with
    | [] => exact absurd rfl hcs
    | c :: rest =>
      have hcne : c ≠ [] := hne c (by simp)
      rw [List.flatten_cons, List.length_append]
      have := List.length_pos.mpr hcne
      omega
  have hlen : ¬ (cs.flatten.take S).length = 0 := by
    rw [List.length_take]
    omega
  simp only [Split.next, Split.new, h1]
  rw [if_neg hlen]
  cases henc : Split.encrypt k (cs.flatten.take S) <;> simp [henc]

/-- Witness for C7: a script serving 1 byte and then 2 bytes, with block size
3: the single produced block is all three bytes, not just the first short
read's one byte. -/
theorem split_drains_short_reads_witness :
    ∃ cs', Split.next (Split.new idKS scriptRead [[1], [2, 3]] 3)
        = (some (Split.encrypt idKS ([[1], [2, 3]].flatten.take 3)),
           Split.new idKS scriptRead cs' 3)
      ∧ cs'.flatten = [[1], [2, 3]].flatten.drop 3 :=
  split_drains_short_reads idKS [[1], [2, 3]] 3 (by omega) (by decide) (by decide)

/-- C8: the splitter's sequence is not fused after an error: over an
inexhaustible source and a key service whose encryption always fails, `next`
returns `some (error EncryptionError)` and the follow-up `next` on the
returned state again returns `some (error EncryptionError)` rather than
`none`. -/
theorem split_not_fused_after_error :
    Split.next (Split.new failKS constRead () 2)
        = (some (.error .EncryptionError), Split.new failKS constRead () 2)
    ∧ Split.next (Split.next (Split.new failKS constRead () 2)).2
        = (some (.error .EncryptionError), Split.new failKS constRead () 2) :=
  ⟨rfl, rfl⟩

/-- C9: a read into a zero-length destination buffer always returns `Ok(0)`
with the merger state untouched — no pair is pulled, nothing is decrypted,
even when decrypted data remains buffered. -/
theorem merge_read_zero_len_buffer (m : Merge) : Merge.read m 0 = .ok [] m := rfl

/-- C10: when encryption of a block fails, `Split::next` yields
`some (error EncryptionError)` and the source has still been advanced past the
whole block: the successor state starts at `B.drop S`, so the consumed
plaintext is never re-read by later calls. -/
theorem split_error_still_consumes_source (k : KeyTree) (B : List Nat) (S : Nat)
    (hS : 1 ≤ S) (hB : B ≠ [])
    (hfail : k.derive_and_encrypt (k.hash (B.take S)) (B.take S) = none) :
    Split.next (Split.new k listRead B S)
      = (some (.error .EncryptionError), Split.new k listRead (B.drop S) S) := by
  rw [Split.next_listRead k B S hS hB]
  have henc : Split.encrypt k (B.take S) = .error .EncryptionError := by
    rw [Split.encrypt, hfail]
  rw [henc]

/-- Witness for C10: a 4-byte source at block size 2 under the always-failing
key service: the call errors and the source state has moved to the last two
bytes. -/
theorem split_error_still_consumes_source_witness :
    Split.next (Split.new failKS listRead [1, 2, 3, 4] 2)
      = (some (.error .EncryptionError), Split.new failKS listRead [3, 4] 2) :=
  split_error_still_consumes_source failKS [1, 2, 3, 4] 2 (by omega) (by decide) rfl

end Schism
